import Mathlib

/-!
Shallow embedding of the multi-matcher scoring engine of the webgpu-demo
repository (src/src/ModelComparison.tsx, src/src/ModelTester.tsx,
src/unnamed/part_000).  The JavaScript string primitives used by the
matchers (`toLowerCase`, `trim`, `split(/\s+/)`, `includes`) are modelled
character-by-character over `String.data`; JavaScript floating-point
numbers are idealised as exact rationals for the matchers and as real
numbers for the vector/scoring pipeline (the `NaN` produced by an
out-of-range index or an all-zero vector is outside the real-valued model
and no claim settled here depends on it).  `Char.toLower` and
`Char.isWhitespace` cover the ASCII range, which is all the catalog and
the claims exercise.
-/

namespace WebGpuDemo

/-- Model of the characters of one string being a leading segment of another,
used to model JavaScript `String.includes`. -/
def startsL : List Char → List Char → Bool
  | [], _ => true
  | _ :: _, [] => false
  | a :: as, b :: bs => a == b && startsL as bs

/-- Model of substring occurrence: `hasSub needle hay` holds when `needle`
occurs contiguously inside `hay`.  An empty needle occurs everywhere, which
matches JavaScript `s.includes("") === true`. -/
def hasSub (needle : List Char) : List Char → Bool
  | [] => startsL needle []
  | c :: rest => startsL needle (c :: rest) || hasSub needle rest

/-- Model of JavaScript `hay.includes(needle)`. -/
def includesStr (hay needle : String) : Bool :=
  hasSub needle.data hay.data

/-- Model of JavaScript `toLowerCase` (ASCII range). -/
def lowerStr (s : String) : String :=
  String.mk (s.data.map Char.toLower)

/-- Model of JavaScript `trim`: strip leading and trailing whitespace. -/
def trimStr (s : String) : String :=
  String.mk (((s.data.dropWhile Char.isWhitespace).reverse.dropWhile Char.isWhitespace).reverse)

/-- Helper for `splitWs`: accumulate maximal non-whitespace runs. -/
def wordsAux : List Char → List Char → List (List Char)
  | [], cur => if cur.isEmpty then [] else [cur.reverse]
  | c :: rest, cur =>
    if c.isWhitespace then
      if cur.isEmpty then wordsAux rest [] else cur.reverse :: wordsAux rest []
    else wordsAux rest (c :: cur)

/-- Model of JavaScript `s.split(/\s+/)` as applied by the matchers.  The
matchers only ever split an already trimmed string, for which the regex
split collapses whitespace runs and produces `[""]` on the empty string. -/
def splitWs (s : String) : List String :=
  if s.data.isEmpty then [ "" ] else (wordsAux s.data []).map String.mk

/-- One row update of the edit-distance dynamic programme of
`levenshteinDistance` (ModelComparison.tsx lines 134-160): given the
character `bc` of the second string, the characters of the first string,
the previous matrix row and the already-computed left neighbour, produce
the tail of the next row. -/
def rowNext (bc : Char) : List Char → List ℕ → ℕ → List ℕ
  | [], _, _ => []
  | _ :: _, [], _ => []
  | ac :: as, pPrev :: pRest, q =>
    let pCur := pRest.headD 0
    let qj := if bc == ac then pPrev else 1 + min pPrev (min q pCur)
    qj :: rowNext bc as pRest qj

/-- Model of `levenshteinDistance` (classic insert/delete/substitute matrix,
unit cost), computed row by row exactly as the source's matrix recurrence. -/
def levenshteinDistance (sa sb : String) : ℕ :=
  let a := sa.data
  let row0 : List ℕ := List.range (a.length + 1)
  let result := sb.data.foldl
    (fun (acc : List ℕ × ℕ) bc =>
      let i := acc.2 + 1
      (i :: rowNext bc a acc.1 i, i))
    (row0, 0)
  result.1.getLastD 0

/-- The similarity ratio on a 0-100 scale used by `fuzzyMatch`:
`((maxLen - distance) / maxLen) * 100` (division by a zero `maxLen`
yields 0 in ℚ; in JavaScript it yields NaN, and both fail the strict
`> 80` threshold test, so the branch taken is identical). -/
def ratio100 (a b : String) : ℚ :=
  let maxLen : ℕ := max a.length b.length
  (((maxLen : ℚ) - (levenshteinDistance a b : ℚ)) / (maxLen : ℚ)) * 100

/-- The synonym loop of `keywordMatch` (ModelComparison.tsx lines 106-132),
threading the mutable `matchCount` and `maxWordLength` accumulators. -/
def kwLoop (queryLower : String) (queryWords : List String) :
    List String → ℕ → ℕ → ℚ
  | [], matchCount, maxWordLength =>
    if 0 < matchCount then
      min (0.7 * ((matchCount : ℚ) / (queryWords.length : ℚ)) +
        0.1 * ((maxWordLength : ℚ) / 10)) 0.85
    else 0
  | syn :: rest, matchCount, maxWordLength =>
    let synLower := lowerStr syn
    if synLower == queryLower then 1.0
    else if includesStr synLower queryLower then 0.95
    else if includesStr queryLower synLower then 0.9
    else
      let acc := queryWords.foldl
        (fun (p : ℕ × ℕ) word =>
          if 3 ≤ word.length && includesStr synLower word then
            (p.1 + 1, max p.2 word.length)
          else p)
        (matchCount, maxWordLength)
      kwLoop queryLower queryWords rest acc.1 acc.2

/-- Model of `keywordMatch` (lexical matcher). -/
def keywordMatch (query : String) (synonyms : List String) : ℚ :=
  let queryLower := trimStr (lowerStr query)
  let queryWords := splitWs queryLower
  kwLoop queryLower queryWords synonyms 0 0

/-- The synonym loop of `fuzzyMatch` (ModelComparison.tsx lines 162-194),
threading the mutable `bestScore` accumulator; the inner fold is the loop
over the query's words, each compared against the whole synonym. -/
def fzLoop (queryLower : String) (queryWords : List String) :
    List String → ℚ → ℚ
  | [], best => best
  | syn :: rest, best =>
    let synLower := lowerStr syn
    let ratio := ratio100 queryLower synLower
    let b1 := if 80 < ratio then max best (ratio / 100) else best
    let b2 := queryWords.foldl
      (fun b word =>
        if 3 ≤ word.length then
          let wordRatio := ratio100 word synLower
          if 80 < wordRatio then max b (wordRatio / 100 * 0.8) else b
        else b)
      b1
    fzLoop queryLower queryWords rest b2

/-- Model of `fuzzyMatch` (edit-distance matcher). -/
def fuzzyMatch (query : String) (synonyms : List String) : ℚ :=
  let queryLower := trimStr (lowerStr query)
  let queryWords := splitWs queryLower
  fzLoop queryLower queryWords synonyms 0

/-- Category record of the catalog: a name and its synonym phrases
(`categoriesWithSynonyms` entries; the orchestrator recovers the name from
the derived label, which for names without a colon is the name itself). -/
structure Category where
  name : String
  synonyms : List String

/-- Weight vector `{keyword, fuzzy, embedding}`. -/
structure Weights where
  keyword : ℝ
  fuzzy : ℝ
  embedding : ℝ

/-- Per-category record built inside `classifyQuery`'s `map` (fields
`category`, `embeddingScore`, `fuzzyScore`, `keywordScore`, `score`). -/
structure Scored where
  category : String
  embeddingScore : ℝ
  fuzzyScore : ℝ
  keywordScore : ℝ
  score : ℝ

/-- Record after position weighting: the `Scored` fields together with the
added `finalScore` field (`{...item, finalScore}`). -/
structure Ranked where
  category : String
  embeddingScore : ℝ
  fuzzyScore : ℝ
  keywordScore : ℝ
  score : ℝ
  finalScore : ℝ

/-- Model of `cosineSimilarity` (ModelComparison.tsx lines 99-104):
dot product over the first vector's indices divided by the product of the
Euclidean magnitudes.  JavaScript floats are idealised as reals. -/
noncomputable def cosineSimilarity (a b : List ℝ) : ℝ :=
  let dotProduct := (a.zip b).foldl (fun s p => s + p.1 * p.2) 0
  let magnitudeA := Real.sqrt (a.foldl (fun s v => s + v * v) 0)
  let magnitudeB := Real.sqrt (b.foldl (fun s v => s + v * v) 0)
  dotProduct / (magnitudeA * magnitudeB)

/-- Index-passing map, modelling `array.map((item, idx) => ...)`. -/
def mapIdxFrom (f : ℕ → Scored → Ranked) : ℕ → List Scored → List Ranked
  | _, [] => []
  | k, a :: as => f k a :: mapIdxFrom f (k + 1) as

/-- The scoring `map` of `classifyQuery`: for the vector at index `idx`,
look the category up by index (an out-of-range index is the JavaScript
`TypeError` on reading `.synonyms` of `undefined`), and build the `Scored`
record from cosine similarity and the two matchers. -/
noncomputable def scoreCategories (query : String) (queryVector : List ℝ)
    (categories : List Category) : ℕ → List (List ℝ) → Except String (List Scored)
  | _, [] => .ok []
  | idx, catVector :: rest =>
    match categories.get? idx with
    | none => .error "TypeError: cannot read properties of undefined"
    | some cat =>
      let embeddingSimilarity := cosineSimilarity queryVector catVector
      let kw : ℚ := keywordMatch query cat.synonyms
      let fz : ℚ := fuzzyMatch query cat.synonyms
      match scoreCategories query queryVector categories (idx + 1) rest with
      | .error e => .error e
      | .ok rs =>
        .ok ({ category := cat.name, embeddingScore := embeddingSimilarity,
               fuzzyScore := (fz : ℝ), keywordScore := (kw : ℝ), score := 0 } :: rs)

/-- The weighted-voting `forEach` of `classifyQuery`: strong keyword
matches (`>= 0.8`) impose weights 0.50/0.20/0.30, else strong fuzzy
matches (`>= 0.85`) impose 0.25/0.45/0.30, else the base weights stand;
the combined score is the weighted sum of the three signals. -/
noncomputable def applyWeights (baseWeights : Weights) (l : List Scored) : List Scored :=
  l.map (fun item =>
    let finalWeights :=
      if (0.8 : ℝ) ≤ item.keywordScore then Weights.mk 0.50 0.20 0.30
      else if (0.85 : ℝ) ≤ item.fuzzyScore then Weights.mk 0.25 0.45 0.30
      else baseWeights
    { item with
        score := item.keywordScore * finalWeights.keyword +
          item.fuzzyScore * finalWeights.fuzzy +
          item.embeddingScore * finalWeights.embedding })

/-- The body of the position-weighting `map`: the item at zero-based rank
`idx` receives `finalScore = score * (0.7 + 0.3 * (1 / (idx + 1)))`. -/
noncomputable def positionItem (idx : ℕ) (item : Scored) : Ranked :=
  let positionWeight : ℝ := 1.0 / ((idx : ℝ) + 1)
  { category := item.category, embeddingScore := item.embeddingScore,
    fuzzyScore := item.fuzzyScore, keywordScore := item.keywordScore,
    score := item.score,
    finalScore := item.score * (0.7 + 0.3 * positionWeight) }

/-- The position-weighting `map` of `classifyQuery`. -/
noncomputable def positionWeighted (l : List Scored) : List Ranked :=
  mapIdxFrom positionItem 0 l

/-- The rank-refining tail of `classifyQuery`: sort descending by combined
score, apply the position bonus, re-sort descending by final score.  The
JavaScript `sort` with comparator `(a, b) => b.x - a.x` is a permutation
that orders descending; it is modelled by a stable insertion sort. -/
noncomputable def rankAll (baseWeights : Weights) (similarities : List Scored) : List Ranked :=
  let weighted := applyWeights baseWeights similarities
  let sorted := List.insertionSort (fun a b => b.score ≤ a.score) weighted
  let positioned := positionWeighted sorted
  List.insertionSort (fun a b => b.finalScore ≤ a.finalScore) positioned

/-- Model of the classification orchestrator `classifyQuery`
(ModelComparison.tsx lines 196-265, ModelTester.tsx lines 251-324,
part_000 `classify`): score every category vector, weight, sort, position
weight, re-sort, drop records with `finalScore < 0.15`, keep the first 10. -/
noncomputable def classifyQuery (query : String) (categories : List Category)
    (categoryVectors : List (List ℝ)) (queryVector : List ℝ)
    (baseWeights : Weights) : Except String (List Ranked) :=
  match scoreCategories query queryVector categories 0 categoryVectors with
  | .error e => .error e
  | .ok similarities =>
    let ranked := rankAll baseWeights similarities
    let filtered := ranked.filter (fun item => decide ((0.15 : ℝ) ≤ item.finalScore))
    .ok (filtered.take 10)

/-- The trichotomy invariant of the fuzzy loop: the accumulator is zero, a
word-level candidate in `(0.64, 0.8]`, or a whole-string candidate
`ratio / 100` for some synonym of `L0` whose ratio clears 80. -/
def FzInv (ql : String) (L0 : List String) (x : ℚ) : Prop :=
  x = 0 ∨ (0.64 < x ∧ x ≤ 0.8) ∨
    (∃ s ∈ L0, 80 < ratio100 ql (lowerStr s) ∧ x = ratio100 ql (lowerStr s) / 100)

/-- A two-category catalog used as concrete test input. -/
def catsPD : List Category :=
  [⟨ "Plumbing", [ "agua" ]⟩, ⟨ "Dentistry", [ "dentista" ]⟩]

/-- The default base weights of the source (`{0.35, 0.30, 0.35}`). -/
noncomputable def w0 : Weights := ⟨0.35, 0.30, 0.35⟩

/-! ### Helper lemmas about the string model and the matchers -/

/-- An empty needle is a substring of every string, as in JavaScript. -/
lemma hasSub_nil_needle (l : List Char) : hasSub [] l = true := by
  cases l <;> simp [hasSub, startsL]

/-- JavaScript `s.includes("")` is `true` for every `s`. -/
lemma includesStr_empty (s : String) : includesStr s "" = true := by
  simp [includesStr, hasSub_nil_needle]

/-- The similarity ratio never exceeds 100. -/
lemma ratio100_le_100 (a b : String) : ratio100 a b ≤ 100 := by
  unfold ratio100
  rcases Nat.eq_zero_or_pos (max a.length b.length) with h | h
  · rw [h]
    norm_num
  · have hm : (0 : ℚ) < ((max a.length b.length : ℕ) : ℚ) := by exact_mod_cast h
    have hd : (0 : ℚ) ≤ ((levenshteinDistance a b : ℕ) : ℚ) := by positivity
    have hq : (((max a.length b.length : ℕ) : ℚ) - ((levenshteinDistance a b : ℕ) : ℚ)) /
        ((max a.length b.length : ℕ) : ℚ) ≤ 1 := by
      rw [div_le_one hm]
      linarith
    nlinarith

/-- Bounds for the keyword loop: the result always lies in `[0, 1]`. -/
lemma kwLoop_bounds (ql : String) (qw : List String) (L : List String)
    (mc mwl : ℕ) : 0 ≤ kwLoop ql qw L mc mwl ∧ kwLoop ql qw L mc mwl ≤ 1 := by
  induction L generalizing mc mwl with
  | nil =>
    simp only [kwLoop]
    split
    · have hx : (0 : ℚ) ≤ 0.7 * ((mc : ℚ) / (qw.length : ℚ)) + 0.1 * ((mwl : ℚ) / 10) := by
        positivity
      constructor
      · exact le_min hx (by norm_num)
      · calc min (0.7 * ((mc : ℚ) / (qw.length : ℚ)) + 0.1 * ((mwl : ℚ) / 10)) 0.85 ≤ 0.85 :=
              min_le_right _ _
          _ ≤ 1 := by norm_num
    · norm_num
  | cons s rest ih =>
    simp only [kwLoop]
    split
    · norm_num
    · split
      · norm_num
      · split
        · norm_num
        · exact ih _ _

/-- The word-level fold inside the fuzzy loop preserves the invariant. -/
lemma fzWordFold_inv (ql : String) (L0 : List String) (syn : String)
    (qw : List String) (b1 : ℚ) (hb1 : FzInv ql L0 b1) :
    FzInv ql L0 (qw.foldl
      (fun b word =>
        if 3 ≤ word.length then
          let wordRatio := ratio100 word (lowerStr syn)
          if 80 < wordRatio then max b (wordRatio / 100 * 0.8) else b
        else b)
      b1) := by
  induction qw generalizing b1 with
  | nil => exact hb1
  | cons w ws ihw =>
    simp only [List.foldl_cons]
    apply ihw
    split
    · split
      · next hwr =>
        have hle : ratio100 w (lowerStr syn) ≤ 100 := ratio100_le_100 _ _
        have hc1 : (0.64 : ℚ) < ratio100 w (lowerStr syn) / 100 * 0.8 := by linarith
        have hc2 : ratio100 w (lowerStr syn) / 100 * 0.8 ≤ 0.8 := by linarith
        rcases hb1 with h0 | ⟨hgt, hle8⟩ | ⟨s, hs, hrs, heq⟩
        · rw [h0, max_eq_right (by linarith)]
          exact Or.inr (Or.inl ⟨hc1, hc2⟩)
        · rcases le_total b1 (ratio100 w (lowerStr syn) / 100 * 0.8) with hc | hc
          · rw [max_eq_right hc]
            exact Or.inr (Or.inl ⟨hc1, hc2⟩)
          · rw [max_eq_left hc]
            exact Or.inr (Or.inl ⟨hgt, hle8⟩)
        · have hbig : ratio100 w (lowerStr syn) / 100 * 0.8 ≤ b1 := by
            rw [heq]
            linarith
          rw [max_eq_left hbig]
          exact Or.inr (Or.inr ⟨s, hs, hrs, heq⟩)
      · exact hb1
    · exact hb1

/-- The fuzzy loop preserves the trichotomy invariant. -/
lemma fzLoop_spec (ql : String) (qw : List String) (L L0 : List String)
    (hsub : ∀ s ∈ L, s ∈ L0) (best : ℚ) (hb : FzInv ql L0 best) :
    FzInv ql L0 (fzLoop ql qw L best) := by
  induction L generalizing best with
  | nil => simpa [fzLoop] using hb
  | cons syn rest ih =>
    simp only [fzLoop]
    apply ih (fun s hs => hsub s (List.mem_cons_of_mem _ hs))
    apply fzWordFold_inv
    have hsyn : syn ∈ L0 := hsub syn (List.mem_cons_self _ _)
    split
    · next hr =>
      rcases le_total best (ratio100 ql (lowerStr syn) / 100) with hc | hc
      · rw [max_eq_right hc]
        exact Or.inr (Or.inr ⟨syn, hsyn, hr, rfl⟩)
      · rw [max_eq_left hc]
        exact hb
    · exact hb

/-! ### C8 — matcher scores lie in the unit interval -/

/-- C8. For every query and synonym list, `fuzzyMatch` and `keywordMatch`
both return values in `[0, 1]`. -/
theorem matcher_scores_unit_interval (q : String) (syns : List String) :
    0 ≤ keywordMatch q syns ∧ keywordMatch q syns ≤ 1 ∧
      0 ≤ fuzzyMatch q syns ∧ fuzzyMatch q syns ≤ 1 := by
  obtain ⟨h1, h2⟩ := kwLoop_bounds (trimStr (lowerStr q)) (splitWs (trimStr (lowerStr q))) syns 0 0
  have hf := fzLoop_spec (trimStr (lowerStr q)) (splitWs (trimStr (lowerStr q))) syns syns
    (fun s hs => hs) 0 (Or.inl rfl)
  unfold FzInv at hf
  refine ⟨h1, h2, ?_, ?_⟩
  · rcases hf with h | ⟨h, _⟩ | ⟨s, _, hr, h⟩
    · rw [fuzzyMatch]
      rw [h]
    · rw [fuzzyMatch]
      linarith
    · rw [fuzzyMatch]
      rw [h]
      linarith
  · rcases hf with h | ⟨_, h⟩ | ⟨s, _, hr, h⟩
    · rw [fuzzyMatch]
      rw [h]
      norm_num
    · rw [fuzzyMatch]
      linarith
    · have := ratio100_le_100 (trimStr (lowerStr q)) (lowerStr s)
      rw [fuzzyMatch]
      rw [h]
      linarith

/-! ### C10 — the fuzzy score has a gap at (0, 0.64] -/

/-- C10. The fuzzy matcher returns either exactly 0 or a value above 0.64,
and a value of 0.85 or more can only be a whole-string candidate (some
synonym whose whole-string ratio clears 80), never a word-level candidate,
which is capped at 0.8. -/
theorem fuzzyMatch_zero_or_above_gap (q : String) (syns : List String) :
    (fuzzyMatch q syns = 0 ∨ 0.64 < fuzzyMatch q syns) ∧
      (0.85 ≤ fuzzyMatch q syns → ∃ s ∈ syns,
        80 < ratio100 (trimStr (lowerStr q)) (lowerStr s) ∧
        fuzzyMatch q syns = ratio100 (trimStr (lowerStr q)) (lowerStr s) / 100) := by
  have hf := fzLoop_spec (trimStr (lowerStr q)) (splitWs (trimStr (lowerStr q))) syns syns
    (fun s hs => hs) 0 (Or.inl rfl)
  unfold FzInv at hf
  rw [fuzzyMatch]
  constructor
  · rcases hf with h | ⟨h, _⟩ | ⟨s, _, hr, h⟩
    · exact Or.inl h
    · exact Or.inr h
    · refine Or.inr ?_
      rw [h]
      linarith
  · intro hge
    rcases hf with h | ⟨_, h⟩ | ⟨s, hs, hr, h⟩
    · rw [h] at hge
      norm_num at hge
    · linarith
    · exact ⟨s, hs, hr, h⟩

/-- Witness for C10 at a concrete input. -/
theorem fuzzyMatch_zero_or_above_gap_witness :
    fuzzyMatch "agua" [ "agua" ] = 0 ∨ 0.64 < fuzzyMatch "agua" [ "agua" ] :=
  (fuzzyMatch_zero_or_above_gap "agua" [ "agua" ]).1

/-! ### C1 — exact synonym matches and the early-exit order -/

set_option maxRecDepth 20000 in
/-- C1 counterexample: the synonym list contains a synonym equal to the
normalized query, yet `keywordMatch` returns 0.95, because the earlier
synonym "fuga de agua" contains the query as a substring and exits first. -/
theorem keywordMatch_exact_not_always_one :
    ("agua" : String) = trimStr (lowerStr "agua") ∧
    "agua" ∈ ([ "fuga de agua", "agua" ] : List String) ∧
    keywordMatch "agua" [ "fuga de agua", "agua" ] = 0.95 ∧ (0.95 : ℚ) ≠ 1 := by
  refine ⟨by decide, by decide, by with_unfolding_all decide, by norm_num⟩

/-- Helper for C1: once an exact synonym is somewhere in the remaining
list, the keyword loop ends in one of the three early-exit values. -/
lemma kwLoop_exact_mem (ql : String) (qw : List String) (L : List String)
    (syn : String) (hmem : syn ∈ L) (hx : lowerStr syn = ql) (mc mwl : ℕ) :
    kwLoop ql qw L mc mwl = 0.9 ∨ kwLoop ql qw L mc mwl = 0.95 ∨
      kwLoop ql qw L mc mwl = 1 := by
  induction L generalizing mc mwl with
  | nil => cases hmem
  | cons s rest ih =>
    simp only [kwLoop]
    rcases List.mem_cons.mp hmem with heq | htail
    · subst heq
      rw [if_pos (by simp [hx])]
      norm_num
    · split
      · norm_num
      · split
        · norm_num
        · split
          · norm_num
          · exact ih htail _ _

/-- C1 amended. If some synonym lower-cases to the normalized query, the
result is one of 0.9, 0.95, 1.0 (an earlier synonym can pre-empt the exact
hit through a substring early exit); when the exact synonym is the head of
the list, the result is exactly 1.0. -/
theorem keywordMatch_exact_synonym (q : String) (syns : List String) (syn : String)
    (hmem : syn ∈ syns) (hx : lowerStr syn = trimStr (lowerStr q)) :
    (keywordMatch q syns = 0.9 ∨ keywordMatch q syns = 0.95 ∨ keywordMatch q syns = 1) ∧
      (∀ rest, syns = syn :: rest → keywordMatch q syns = 1) := by
  constructor
  · rw [keywordMatch]
    exact kwLoop_exact_mem _ _ _ syn hmem hx 0 0
  · intro rest hrest
    subst hrest
    rw [keywordMatch]
    simp only [kwLoop]
    rw [if_pos (by simp [hx])]
    norm_num

/-- Witness for C1's amended theorem at a concrete input. -/
theorem keywordMatch_exact_synonym_witness : keywordMatch "agua" [ "agua" ] = 1 :=
  (keywordMatch_exact_synonym "agua" [ "agua" ] "agua" (by decide) (by decide)).2 [] rfl

/-! ### C3 — the fuzzy matcher on "me duele un diente" -/

set_option maxRecDepth 40000 in
/-- C3 counterexample: `fuzzyMatch` returns 0 on this query/synonym pair,
not a non-zero score. -/
theorem fuzzyMatch_diente_zero :
    fuzzyMatch "me duele un diente" [ "dolor de dientes" ] = 0 := by
  with_unfolding_all decide

set_option maxRecDepth 40000 in
/-- C3 amended: the matcher compares each query word against the whole
synonym string, never word against word, so although the word pair
"diente"/"dientes" has ratio 600/7 > 80, the pair actually computed,
"diente" against "dolor de dientes", has ratio 37.5 < 80, and no candidate
clears the threshold: the fuzzy score for this example is exactly 0. -/
theorem fuzzyMatch_diente_amended :
    fuzzyMatch "me duele un diente" [ "dolor de dientes" ] = 0 ∧
    80 < ratio100 "diente" "dientes" ∧
    ratio100 "diente" (lowerStr "dolor de dientes") < 80 := by
  refine ⟨by with_unfolding_all decide, by with_unfolding_all decide,
    by with_unfolding_all decide⟩

/-! ### C4 — empty query and empty synonym list -/

set_option maxRecDepth 20000 in
/-- C4 counterexample: for the empty query (which normalizes to the empty
string) and a non-empty synonym list, `keywordMatch` returns 0.95 rather
than 0, because every string contains the empty string as a substring. -/
theorem keywordMatch_empty_query_not_zero :
    trimStr (lowerStr "") = "" ∧
    keywordMatch "" [ "agua" ] = 0.95 ∧ (0.95 : ℚ) ≠ 0 := by
  refine ⟨by decide, by with_unfolding_all decide, by norm_num⟩

/-- C4 amended. `keywordMatch` is total and returns 0 on an empty synonym
list, but a query normalizing to the empty string scores 1.0 (when the
first synonym also lower-cases to the empty string) or 0.95 (otherwise)
against any non-empty synonym list, since the substring early exit fires
on the empty query. -/
theorem keywordMatch_empty_cases :
    (∀ q : String, keywordMatch q [] = 0) ∧
      (∀ (q s : String) (rest : List String), trimStr (lowerStr q) = "" →
        keywordMatch q (s :: rest) = if lowerStr s = "" then 1 else 0.95) := by
  constructor
  · intro q
    rw [keywordMatch]
    simp [kwLoop]
  · intro q s rest hq
    rw [keywordMatch]
    rw [hq]
    simp only [kwLoop]
    by_cases hs : lowerStr s = ""
    · rw [if_pos (by simp [hs])]
      rw [if_pos hs]
      norm_num
    · rw [if_neg (by simp [hs])]
      rw [if_pos (includesStr_empty (lowerStr s))]
      rw [if_neg hs]

/-- Witness for C4's amended theorem at concrete inputs. -/
theorem keywordMatch_empty_cases_witness :
    keywordMatch "x" [] = 0 ∧
      keywordMatch "" ([ "agua" ] : List String) =
        if lowerStr "agua" = "" then 1 else 0.95 :=
  ⟨keywordMatch_empty_cases.1 "x",
    keywordMatch_empty_cases.2 "" "agua" [] (by decide)⟩

/-! ### Helper lemmas about the pipeline -/

/-- Length is preserved by the index-passing map. -/
lemma mapIdxFrom_length (f : ℕ → Scored → Ranked) :
    ∀ (k : ℕ) (l : List Scored), (mapIdxFrom f k l).length = l.length
  | _, [] => rfl
  | k, _ :: as => by simp [mapIdxFrom, mapIdxFrom_length f (k + 1) as]

/-- Element extraction for the index-passing map. -/
lemma mapIdxFrom_get (f : ℕ → Scored → Ranked) :
    ∀ (l : List Scored) (k i : ℕ) (h : i < l.length)
      (h2 : i < (mapIdxFrom f k l).length),
      (mapIdxFrom f k l).get ⟨i, h2⟩ = f (k + i) (l.get ⟨i, h⟩) := by
  intro l
  induction l with
  | nil => intro k i h h2; cases h
  | cons a as ih =>
    intro k i h h2
    cases i with
    | zero => rfl
    | succ j =>
      have hj : j < as.length := Nat.lt_of_succ_lt_succ h
      have hj2 : j < (mapIdxFrom f (k + 1) as).length := by
        rw [mapIdxFrom_length]
        exact hj
      have := ih (k + 1) j hj hj2
      simp only [mapIdxFrom, List.get_cons_succ]
      rw [this]
      congr 1
      omega

/-- Every element of the index-passing map comes from an element of the
input list. -/
lemma mapIdxFrom_mem (f : ℕ → Scored → Ranked) :
    ∀ (k : ℕ) (l : List Scored) (r : Ranked), r ∈ mapIdxFrom f k l →
      ∃ i s, s ∈ l ∧ r = f i s := by
  intro k l
  induction l generalizing k with
  | nil => intro r hr; cases hr
  | cons a as ih =>
    intro r hr
    rcases List.mem_cons.mp hr with h | h
    · exact ⟨k, a, List.mem_cons_self _ _, h⟩
    · obtain ⟨i, s, hs, heq⟩ := ih (k + 1) r h
      exact ⟨i, s, List.mem_cons_of_mem _ hs, heq⟩

/-- Element extraction for the position-weighting map. -/
lemma positionWeighted_get (l : List Scored) (i : ℕ) (h : i < l.length)
    (h2 : i < (positionWeighted l).length) :
    (positionWeighted l).get ⟨i, h2⟩ = positionItem i (l.get ⟨i, h⟩) := by
  have h2x : i < (mapIdxFrom positionItem 0 l).length := h2
  have hx := mapIdxFrom_get positionItem l 0 i h h2x
  rw [Nat.zero_add] at hx
  exact hx

/-- Every record in `positionWeighted l` copies the five `Scored` fields of
some record of `l`. -/
lemma positionWeighted_mem (l : List Scored) (r : Ranked)
    (hr : r ∈ positionWeighted l) :
    ∃ s ∈ l, r.category = s.category ∧ r.embeddingScore = s.embeddingScore ∧
      r.fuzzyScore = s.fuzzyScore ∧ r.keywordScore = s.keywordScore ∧
      r.score = s.score := by
  obtain ⟨i, s, hs, heq⟩ := mapIdxFrom_mem _ 0 l r hr
  subst heq
  exact ⟨s, hs, by simp [positionItem], by simp [positionItem],
    by simp [positionItem], by simp [positionItem], by simp [positionItem]⟩

/-- Every record of `applyWeights` carries a combined score equal to the
weighted sum of its own three signal fields, under the rule-based
effective weights (keyword override first, then fuzzy, then base). -/
lemma applyWeights_mem (w : Weights) (l : List Scored) (r : Scored)
    (hr : r ∈ applyWeights w l) :
    r.score =
      if (0.8 : ℝ) ≤ r.keywordScore then
        r.keywordScore * 0.50 + r.fuzzyScore * 0.20 + r.embeddingScore * 0.30
      else if (0.85 : ℝ) ≤ r.fuzzyScore then
        r.keywordScore * 0.25 + r.fuzzyScore * 0.45 + r.embeddingScore * 0.30
      else
        r.keywordScore * w.keyword + r.fuzzyScore * w.fuzzy +
          r.embeddingScore * w.embedding := by
  obtain ⟨item, hitem, heq⟩ := List.mem_map.mp hr
  subst heq
  cases item with
  | mk c e fz kw sc =>
    simp only [applyWeights]
    split
    · simp_all
    · split <;> simp_all

/-- Destructuring of a successful classification: the scoring map
succeeded and the result is the filtered, truncated ranking. -/
lemma classifyQuery_ok_elim (q : String) (cats : List Category)
    (vecs : List (List ℝ)) (v : List ℝ) (w : Weights) (res : List Ranked)
    (h : classifyQuery q cats vecs v w = .ok res) :
    ∃ sims, scoreCategories q v cats 0 vecs = .ok sims ∧
      res = ((rankAll w sims).filter
        (fun item => decide ((0.15 : ℝ) ≤ item.finalScore))).take 10 := by
  rw [classifyQuery] at h
  split at h
  · cases h
  · next sims hs =>
    refine ⟨sims, hs, ?_⟩
    injection h with h
    exact h.symm

/-- The scoring map succeeds whenever the vectors do not outnumber the
categories (counting from start index `idx`). -/
lemma scoreCategories_ok_of_le (q : String) (v : List ℝ) (cats : List Category) :
    ∀ (vecs : List (List ℝ)) (idx : ℕ), idx + vecs.length ≤ cats.length →
      ∃ l, scoreCategories q v cats idx vecs = .ok l := by
  intro vecs
  induction vecs with
  | nil => exact fun idx _ => ⟨[], rfl⟩
  | cons cv rest ih =>
    intro idx h
    have hidx : idx < cats.length := by
      simp only [List.length_cons] at h
      omega
    obtain ⟨l, hl⟩ := ih (idx + 1) (by simp only [List.length_cons] at h; omega)
    simp only [scoreCategories]
    rw [List.get?_eq_get hidx, hl]
    exact ⟨_, rfl⟩

/-- The scoring map fails with the lookup error as soon as the vectors
outnumber the categories. -/
lemma scoreCategories_error_of_gt (q : String) (v : List ℝ) (cats : List Category) :
    ∀ (vecs : List (List ℝ)) (idx : ℕ), vecs ≠ [] →
      cats.length < idx + vecs.length →
      scoreCategories q v cats idx vecs =
        .error "TypeError: cannot read properties of undefined" := by
  intro vecs
  induction vecs with
  | nil => exact fun idx hne _ => absurd rfl hne
  | cons cv rest ih =>
    intro idx _ h
    by_cases hidx : idx < cats.length
    · have hrest : rest ≠ [] := by
        intro hr
        subst hr
        simp only [List.length_cons, List.length_nil] at h
        omega
      have := ih (idx + 1) hrest (by simp only [List.length_cons] at h; omega)
      simp only [scoreCategories]
      rw [List.get?_eq_get hidx, this]
    · simp only [scoreCategories]
      rw [List.get?_eq_none.mpr (Nat.le_of_not_lt hidx)]

/-! ### Concrete evaluation of the pipeline -/

/-- Cosine similarity of the one-dimensional vectors `[1]` and `[1]`. -/
lemma cosineSimilarity_one : cosineSimilarity [(1 : ℝ)] [(1 : ℝ)] = 1 := by
  simp only [cosineSimilarity, List.zip_cons_cons, List.zip_nil_right,
    List.foldl_cons, List.foldl_nil]
  norm_num [Real.sqrt_one]

set_option maxRecDepth 20000 in
/-- Concrete run of the scoring map: two categories, one vector — the
mismatch is not detected and the vector-covered prefix is scored. -/
lemma scoreCategories_eval :
    scoreCategories "agua" [(1 : ℝ)] catsPD 0 [[(1 : ℝ)]] =
      .ok [⟨ "Plumbing", 1, 1, 1, 0⟩] := by
  have hk : keywordMatch "agua" [ "agua" ] = 1 := by with_unfolding_all decide
  have hf : fuzzyMatch "agua" [ "agua" ] = 1 := by with_unfolding_all decide
  simp only [scoreCategories, catsPD, List.get?]
  rw [hk, hf, cosineSimilarity_one]
  norm_num

set_option maxRecDepth 20000 in
/-- Concrete run of the whole pipeline on mismatched counts (two
categories, one category vector): a normal result is produced. -/
lemma classifyQuery_eval :
    classifyQuery "agua" catsPD [[(1 : ℝ)]] [(1 : ℝ)] w0 =
      .ok [⟨ "Plumbing", 1, 1, 1, 1, 1⟩] := by
  rw [classifyQuery, scoreCategories_eval]
  simp only [rankAll, applyWeights, List.map_cons, List.map_nil]
  rw [if_pos (by norm_num : (0.8 : ℝ) ≤ 1)]
  simp only [List.insertionSort, List.orderedInsert, positionWeighted, mapIdxFrom, positionItem]
  norm_num [List.filter, decide_eq_true_eq]

/-! ### C2 — no precondition validation in the orchestrator -/

/-- C2 counterexample: the category list and the vector list have
different lengths (2 versus 1), yet `classifyQuery` returns a normal
result instead of rejecting the input as an invalid-input error. -/
theorem classifyQuery_mismatch_not_rejected :
    catsPD.length = 2 ∧ ([[(1 : ℝ)]] : List (List ℝ)).length = 1 ∧
      classifyQuery "agua" catsPD [[(1 : ℝ)]] [(1 : ℝ)] w0 =
        .ok [⟨ "Plumbing", 1, 1, 1, 1, 1⟩] :=
  ⟨rfl, rfl, classifyQuery_eval⟩

/-- C2 amended. `classifyQuery` performs no precondition validation:
whenever the category vectors do not outnumber the categories it returns a
normal (possibly silently truncated) result, even under count or dimension
mismatches; only when the vectors outnumber the categories does it fail,
and then with a mid-scoring lookup error rather than an upfront
invalid-input rejection; a query-vector dimension mismatch is never
detected. -/
theorem classifyQuery_no_validation (q : String) (cats : List Category)
    (vecs : List (List ℝ)) (v : List ℝ) (w : Weights) :
    (vecs.length ≤ cats.length →
      ∃ res, classifyQuery q cats vecs v w = .ok res) ∧
    (vecs ≠ [] → cats.length < vecs.length →
      classifyQuery q cats vecs v w =
        .error "TypeError: cannot read properties of undefined") := by
  constructor
  · intro hle
    obtain ⟨l, hl⟩ := scoreCategories_ok_of_le q v cats vecs 0 (by omega)
    rw [classifyQuery, hl]
    exact ⟨_, rfl⟩
  · intro hne hgt
    have := scoreCategories_error_of_gt q v cats vecs 0 hne (by omega)
    rw [classifyQuery, this]

/-- Witness for C2's amended theorem at a concrete input. -/
theorem classifyQuery_no_validation_witness :
    ∃ res, classifyQuery "agua" catsPD [[(1 : ℝ)]] [(1 : ℝ)] w0 = .ok res :=
  (classifyQuery_no_validation "agua" catsPD [[(1 : ℝ)]] [(1 : ℝ)] w0).1
    (by simp [catsPD])

/-! ### C5 — the combined score and the weight-override rules -/

/-- C5. Every returned record's combined score is the weighted sum of its
own keyword, fuzzy and embedding scores under the effective weights:
0.50/0.20/0.30 when the keyword score is at least 0.8 (this rule has
priority), else 0.25/0.45/0.30 when the fuzzy score is at least 0.85, else
the caller-supplied base weights. -/
theorem classifyQuery_combined_score (q : String) (cats : List Category)
    (vecs : List (List ℝ)) (v : List ℝ) (w : Weights) (res : List Ranked)
    (h : classifyQuery q cats vecs v w = .ok res) (r : Ranked) (hr : r ∈ res) :
    r.score =
      if (0.8 : ℝ) ≤ r.keywordScore then
        r.keywordScore * 0.50 + r.fuzzyScore * 0.20 + r.embeddingScore * 0.30
      else if (0.85 : ℝ) ≤ r.fuzzyScore then
        r.keywordScore * 0.25 + r.fuzzyScore * 0.45 + r.embeddingScore * 0.30
      else
        r.keywordScore * w.keyword + r.fuzzyScore * w.fuzzy +
          r.embeddingScore * w.embedding := by
  obtain ⟨sims, hs, hres⟩ := classifyQuery_ok_elim q cats vecs v w res h
  subst hres
  have h1 : r ∈ rankAll w sims :=
    (List.mem_filter.mp (List.take_subset _ _ hr)).1
  rw [rankAll] at h1
  rw [List.mem_insertionSort] at h1
  obtain ⟨s, hsmem, hc, he, hfz, hkw, hsc⟩ := positionWeighted_mem _ r h1
  rw [List.mem_insertionSort] at hsmem
  have := applyWeights_mem w sims s hsmem
  rw [hsc, he, hfz, hkw]
  exact this

/-- Witness for C5 at a concrete input. -/
theorem classifyQuery_combined_score_witness :
    (Ranked.mk "Plumbing" 1 1 1 1 1).score =
      if (0.8 : ℝ) ≤ (Ranked.mk "Plumbing" 1 1 1 1 1).keywordScore then
        (Ranked.mk "Plumbing" 1 1 1 1 1).keywordScore * 0.50 +
          (Ranked.mk "Plumbing" 1 1 1 1 1).fuzzyScore * 0.20 +
          (Ranked.mk "Plumbing" 1 1 1 1 1).embeddingScore * 0.30
      else if (0.85 : ℝ) ≤ (Ranked.mk "Plumbing" 1 1 1 1 1).fuzzyScore then
        (Ranked.mk "Plumbing" 1 1 1 1 1).keywordScore * 0.25 +
          (Ranked.mk "Plumbing" 1 1 1 1 1).fuzzyScore * 0.45 +
          (Ranked.mk "Plumbing" 1 1 1 1 1).embeddingScore * 0.30
      else
        (Ranked.mk "Plumbing" 1 1 1 1 1).keywordScore * w0.keyword +
          (Ranked.mk "Plumbing" 1 1 1 1 1).fuzzyScore * w0.fuzzy +
          (Ranked.mk "Plumbing" 1 1 1 1 1).embeddingScore * w0.embedding :=
  classifyQuery_combined_score "agua" catsPD [[(1 : ℝ)]] [(1 : ℝ)] w0 _
    classifyQuery_eval _ (List.mem_singleton.mpr rfl)

/-! ### C6 — the confidence threshold is enforced -/

/-- C6. No record of a returned ranking has a final score below the 0.15
confidence threshold: every item falling below it is filtered out. -/
theorem classifyQuery_threshold (q : String) (cats : List Category)
    (vecs : List (List ℝ)) (v : List ℝ) (w : Weights) (res : List Ranked)
    (h : classifyQuery q cats vecs v w = .ok res) (r : Ranked) (hr : r ∈ res) :
    (0.15 : ℝ) ≤ r.finalScore := by
  obtain ⟨sims, hs, hres⟩ := classifyQuery_ok_elim q cats vecs v w res h
  subst hres
  exact of_decide_eq_true (List.mem_filter.mp (List.take_subset _ _ hr)).2

/-- Witness for C6 at a concrete input. -/
theorem classifyQuery_threshold_witness :
    (0.15 : ℝ) ≤ (Ranked.mk "Plumbing" 1 1 1 1 1).finalScore :=
  classifyQuery_threshold "agua" catsPD [[(1 : ℝ)]] [(1 : ℝ)] w0 _
    classifyQuery_eval _ (List.mem_singleton.mpr rfl)

/-! ### C7 — truncation to min(10, count clearing the threshold) -/

/-- C7. The returned ranking has length `min 10 n`, where `n` counts the
ranked records clearing the 0.15 threshold; in particular an empty catalog
yields the empty list, not an error. -/
theorem classifyQuery_truncation (q : String) (cats : List Category)
    (vecs : List (List ℝ)) (v : List ℝ) (w : Weights) (sims : List Scored)
    (res : List Ranked) (hs : scoreCategories q v cats 0 vecs = .ok sims)
    (h : classifyQuery q cats vecs v w = .ok res) :
    res.length = min 10 ((rankAll w sims).countP
        (fun item => decide ((0.15 : ℝ) ≤ item.finalScore))) ∧
      classifyQuery q [] [] v w = .ok [] := by
  constructor
  · obtain ⟨sims2, hs2, hres⟩ := classifyQuery_ok_elim q cats vecs v w res h
    rw [hs] at hs2
    injection hs2 with hs2
    subst hs2
    subst hres
    rw [List.length_take, List.countP_eq_length_filter]
  · rfl

/-- Witness for C7 at a concrete input. -/
theorem classifyQuery_truncation_witness :
    [(⟨ "Plumbing", 1, 1, 1, 1, 1⟩ : Ranked)].length =
      min 10 ((rankAll w0 [⟨ "Plumbing", 1, 1, 1, 0⟩]).countP
        (fun item => decide ((0.15 : ℝ) ≤ item.finalScore))) ∧
      classifyQuery "agua" [] [] [(1 : ℝ)] w0 = .ok [] :=
  classifyQuery_truncation "agua" catsPD [[(1 : ℝ)]] [(1 : ℝ)] w0 _ _
    scoreCategories_eval classifyQuery_eval

/-! ### C9 — the position bonus factor -/

/-- C9. The item at zero-based rank `i` receives final score
`score * (0.7 + 0.3 * (1 / (i + 1)))`; the bonus factor is at most 1,
equals 1 exactly at rank 0, so for a non-negative combined score the final
score never exceeds the combined score, and the top-ranked item's final
score equals its combined score. -/
theorem positionWeighted_bonus (l : List Scored) (i : ℕ) (h : i < l.length)
    (h2 : i < (positionWeighted l).length) :
    ((positionWeighted l).get ⟨i, h2⟩).finalScore =
        (l.get ⟨i, h⟩).score * (0.7 + 0.3 * (1.0 / ((i : ℝ) + 1))) ∧
      0.7 + 0.3 * (1.0 / ((i : ℝ) + 1)) ≤ 1 ∧
      (i = 0 → 0.7 + 0.3 * (1.0 / ((i : ℝ) + 1)) = 1) ∧
      (0 ≤ (l.get ⟨i, h⟩).score →
        ((positionWeighted l).get ⟨i, h2⟩).finalScore ≤ (l.get ⟨i, h⟩).score) ∧
      (i = 0 →
        ((positionWeighted l).get ⟨i, h2⟩).finalScore = (l.get ⟨i, h⟩).score) := by
  have hfs : ((positionWeighted l).get ⟨i, h2⟩).finalScore =
      (l.get ⟨i, h⟩).score * (0.7 + 0.3 * (1.0 / ((i : ℝ) + 1))) := by
    rw [positionWeighted_get l i h h2]
    simp [positionItem]
  have hpos : (0 : ℝ) < (i : ℝ) + 1 := by positivity
  have hfac : 0.7 + 0.3 * (1.0 / ((i : ℝ) + 1)) ≤ 1 := by
    have h1 : (1.0 : ℝ) / ((i : ℝ) + 1) ≤ 1 := by
      rw [div_le_one hpos]
      have : (0 : ℝ) ≤ (i : ℝ) := Nat.cast_nonneg i
      linarith
    linarith
  have hzero : i = 0 → 0.7 + 0.3 * (1.0 / ((i : ℝ) + 1)) = 1 := by
    intro hi
    subst hi
    norm_num
  refine ⟨hfs, hfac, hzero, ?_, ?_⟩
  · intro hsc
    rw [hfs]
    calc (l.get ⟨i, h⟩).score * (0.7 + 0.3 * (1.0 / ((i : ℝ) + 1)))
        ≤ (l.get ⟨i, h⟩).score * 1 := by
          exact mul_le_mul_of_nonneg_left hfac hsc
      _ = (l.get ⟨i, h⟩).score := mul_one _
  · intro hi
    rw [hfs, hzero hi, mul_one]

/-- Witness for C9 at a concrete input. -/
theorem positionWeighted_bonus_witness :
    0.7 + 0.3 * (1.0 / (((0 : ℕ) : ℝ) + 1)) ≤ 1 :=
  (positionWeighted_bonus [⟨ "c", 0, 0, 0, 1⟩] 0 (by simp)
    (by simp only [positionWeighted, mapIdxFrom_length]; simp)).2.1

end WebGpuDemo
